import Mathlib

/-!
A verification development for the corner-plot animation utility in
`src/prism.py` (functions `corner`, `update_corner`, `iterate_corner`).

Modelling conventions (shallow embedding):
* numpy floating-point values are modelled as exact rationals (`ℚ`);
* a `T × N × dim` sample cube is a structure carrying the three sizes and a
  total indexing function (meaningful on `[0,T) × [0,N) × [0,dim)`);
* numpy 1-D arrays are Lean lists;
* Python exceptions (`IndexError` from out-of-range indexing, and the
  dimension-mismatch rejection) are modelled with `Except PyErr`;
* `ℚ` division totalises division by zero as `0` (numpy instead produces a
  non-finite value together with a runtime warning); the spots where this
  matters are flagged in comments.
-/

namespace Prism

/-- Errors raised by the Python code paths that the embedding models.
`indexError` stands for Python's `IndexError` (indexing an empty or too-short
list/array), `dimensionMismatch` for the dimension-mismatch rejection of the
external plotting collaborator. -/
inductive PyErr where
  | indexError : PyErr
  | dimensionMismatch : PyErr
deriving DecidableEq

/-- The sample cube `data_cube`: `T` timesteps of `N` walkers of a `D`
dimensional distribution; `val t n d` is `data_cube[t, n, d]`. -/
structure Cube where
  T : ℕ
  N : ℕ
  D : ℕ
  val : ℕ → ℕ → ℕ → ℚ

/-- Total list indexing: `idx l n b` is `l[n]` when `n < l.length`, `b`
otherwise (the junk default never matters at in-range indices). -/
def idx {β : Type} (l : List β) (n : ℕ) (b : β) : β := (l[n]?).getD b

/-- The minimum of a nonempty list, as numpy's `.min()` / Python's `min`
computes it (junk value `0` on the empty list, where Python raises). -/
def npMin (l : List ℚ) : ℚ :=
  match l with
  | [] => 0
  | a :: t => t.foldr min a

/-- The maximum of a nonempty list, as numpy's `.max()` / Python's `max`
computes it (junk value `0` on the empty list, where Python raises). -/
def npMax (l : List ℚ) : ℚ :=
  match l with
  | [] => 0
  | a :: t => t.foldr max a

/-- All samples of parameter `d` over every timestep and every walker:
`data_cube[..., d]` flattened (src/prism.py line 111). -/
def colVals (c : Cube) (d : ℕ) : List ℚ :=
  (List.range c.T).flatMap (fun t => (List.range c.N).map (fun n => c.val t n d))

/-- The final timestep's samples of parameter `d`: `data_cube[-1, :, d]`
(src/prism.py lines 112 and 117). -/
def finalVals (c : Cube) (d : ℕ) : List ℚ :=
  (List.range c.N).map (fun n => c.val (c.T - 1) n d)

/-- The overall minimum `data_cube[..., d].min()` (src/prism.py line 111). -/
def paramMin (c : Cube) (d : ℕ) : ℚ := npMin (colVals c d)

/-- The overall maximum `data_cube[..., d].max()` (src/prism.py line 111). -/
def paramMax (c : Cube) (d : ℕ) : ℚ := npMax (colVals c d)

/-- The `extremes` list built by the loop of src/prism.py lines 110-111:
one `(min, max)` pair per parameter. -/
def extremes (c : Cube) : List (ℚ × ℚ) :=
  (List.range c.D).map (fun d => (paramMin c d, paramMax c d))

/-- The constant `final_bins = 50`, the number of bins covering the final
posterior (src/prism.py line 104). -/
def finalBins : ℕ := 50

/-- The final-timestep bin width
`dx = (data_cube[-1, :, x].max() - data_cube[-1, :, x].min()) / final_bins`
(src/prism.py line 112). -/
def dx (c : Cube) (d : ℕ) : ℚ :=
  (npMax (finalVals c d) - npMin (finalVals c d)) / (finalBins : ℚ)

/-- The bin count `nbins = np.diff(extremes[x])[0] // dx`
(src/prism.py line 113):
floor division of the full extent width by the final-timestep bin width.
When `dx = 0` the rational model yields `0` (numpy instead produces a
non-finite value with only a runtime warning); there is no degeneracy check
in the source. -/
def nbins (c : Cube) (d : ℕ) : ℤ :=
  ⌊(paramMax c d - paramMin c d) / dx c d⌋

/-- Evenly spaced points: `np.linspace(a, b, num)` is the list of `num`
points from `a` to `b` inclusive. -/
def linspace (a b : ℚ) (num : ℕ) : List ℚ :=
  if num ≤ 1 then (List.range num).map (fun _ => a)
  else (List.range num).map (fun (i : ℕ) => a + (i : ℚ) * (b - a) / ((num : ℚ) - 1))

/-- The bin edges
`these_bins = np.linspace(extremes[x][0], extremes[x][1], nbins + 1)[:-1]`
(src/prism.py lines 114-115): `nbins + 1` evenly spaced points across the
parameter's extent with the last point dropped. -/
def binEdges (c : Cube) (d : ℕ) : List ℚ :=
  (linspace (paramMin c d) (paramMax c d) ((nbins c d).toNat + 1)).dropLast

/-- Bin occupation counts of `np.histogram(samples, bins=edges)`: bin `j` is
the half-open interval `[edges[j], edges[j+1])`, except the last bin, which
also includes its right boundary. -/
def histCounts (samples edges : List ℚ) : List ℕ :=
  (List.range (edges.length - 1)).map (fun j =>
    samples.countP (fun v =>
      decide (idx edges j 0 ≤ v) &&
      (if j + 1 = edges.length - 1 then decide (v ≤ idx edges (j + 1) 0)
       else decide (v < idx edges (j + 1) 0))))

/-- The normalised histogram `np.histogram(samples, bins=edges, normed=True)`:
each bin count divided
by the bin width times the total in-range count (`n / db / n.sum()`).
The rational model totalises the degenerate `0/0` case as `0`. -/
def histDensities (samples edges : List ℚ) : List ℚ :=
  (List.range (edges.length - 1)).map (fun j =>
    ((idx (histCounts samples edges) j 0 : ℕ) : ℚ) /
      ((idx edges (j + 1) 0 - idx edges j 0) * (((histCounts samples edges).sum : ℕ) : ℚ)))

/-- The per-parameter y-cap `ymaxs.append(1.1 * max(hist))` with
`hist, _ = np.histogram(data_cube[-1, :, x], bins=bins[-1], normed=True)`
(src/prism.py lines 117-118). -/
def ymax (c : Cube) (d : ℕ) : ℚ :=
  11 / 10 * npMax (histDensities (finalVals c d) (binEdges c d))

/-- The per-parameter bin-edge list built by the setup loop of `corner`. -/
def binsList (c : Cube) : List (List ℚ) := (List.range c.D).map (binEdges c)

/-- The per-parameter y-axis caps built by the setup loop of `corner`. -/
def ymaxsList (c : Cube) : List ℚ := (List.range c.D).map (ymax c)

/-- The thinning factor `thin_factor = (nframes // rough_length) // fps`
(src/prism.py line 137):
`nframes` is an `int`, `rough_length` a float, so both `//` are
floor divisions. -/
def thin_factor (T fps : ℕ) (rough : ℚ) : ℤ :=
  ⌊((⌊(T : ℚ) / rough⌋ : ℤ) : ℚ) / (fps : ℚ)⌋

/-- The timestep indices kept by the stride slice `data_cube[::k]`:
every index below `T` that is a multiple of `k` (src/prism.py line 139). -/
def sliceIndices (T k : ℕ) : List ℕ :=
  (List.range T).filter (fun i => i % k == 0)

/-- The retained frame indices of `corner` (src/prism.py lines 137-139):
the stride slice when `thin_factor > 1`, otherwise all `T` frames. -/
def retainedFrames (T fps : ℕ) (rough : ℚ) : List ℕ :=
  if 1 < thin_factor T fps rough then sliceIndices T (thin_factor T fps rough).toNat
  else List.range T

/-- The rescaling `samps_per_frame *= thin_factor` inside the
`thin_factor > 1` branch (src/prism.py line 140). -/
def newSampsPerFrame (spf : ℚ) (T fps : ℕ) (rough : ℚ) : ℚ :=
  if 1 < thin_factor T fps rough then spf * ((thin_factor T fps rough : ℤ) : ℚ)
  else spf

/-- A diagonal (histogram) axis of the figure.  `patches` models the
histogram artists currently drawn (the density list and edge list each was
drawn from); `lines` models the x-positions of the `axvline` truth lines. -/
structure DiagAxis where
  xlim : ℚ × ℚ
  ylimTop : ℚ
  patches : List (List ℚ × List ℚ)
  lines : List ℚ

/-- A lower-triangle (scatter) axis: `lines` models `ax.get_lines()`, each
line carrying its `(xdata, ydata)`. -/
structure ScatterAxis where
  lines : List (List ℚ × List ℚ)

/-- The figure: a `D × D` axes grid with histogram axes on the diagonal and
scatter axes in the lower triangle (upper triangle unused). -/
structure Figure where
  D : ℕ
  diag : ℕ → DiagAxis
  lower : ℕ → ℕ → ScatterAxis

/-- Column `data[:, x]` of a single-frame `N × D` sample matrix. -/
def col (frame : List (List ℚ)) (x : ℕ) : List ℚ :=
  frame.map (fun row => idx row x 0)

/-- The parameter count `ndim = data.shape[-1]` of a single-frame sample
matrix (the common
row length of a rectangular array; read off the first row). -/
def frameDim (frame : List (List ℚ)) : ℕ := (frame.headD []).length

/-- Frame `i` of the cube, `data_cube[i]`, as an `N × D` sample matrix. -/
def cubeFrame (c : Cube) (i : ℕ) : List (List ℚ) :=
  (List.range c.N).map (fun n => (List.range c.D).map (fun d => c.val i n d))

/-- The per-pair iteration order of the scatter loop
`for x in range(1, ndim): for y in range(x)` (src/prism.py lines 188-189);
`x = 0` contributes no pairs, so starting the outer range at `0` yields the
same list. -/
def pairList (D : ℕ) : List (ℕ × ℕ) :=
  (List.range D).flatMap (fun x => (List.range x).map (fun y => (x, y)))

/-- Sequential execution of a loop body that can raise, stopping at the
first raised error (the semantics of a Python `for` loop over `l`). -/
def foldE {σ α : Type} (step : σ → α → Except PyErr σ) : σ → List α → Except PyErr σ
  | s, [] => Except.ok s
  | s, a :: l =>
    match step s a with
    | Except.error e => Except.error e
    | Except.ok s2 => foldE step s2 l

/-- One iteration of the diagonal-histogram loop of `update_corner`
(src/prism.py lines 163-185) on axis `x`: save `xlim` (and the unused
`ylim`), remove every histogram patch, redraw the histogram of
`data[:, x]` with the fixed edges `bins[x]` (the `range=xlim` argument is
ignored by numpy when explicit edges are given; the `except TypeError`
fallback for a scalar `bins` is not exercised by the `corner` pipeline,
which always passes a list of edge arrays), pin the y-limit to `ymaxs[x]`
when `ymaxs` is given (else to the fresh histogram's own peak), and draw an
`axvline` at `truths[x]` when `truths` is given.  Out-of-range indexing of
`bins` / `ymaxs` / `truths` raises `IndexError`.  (On a raised error Python
leaves the mutations of earlier iterations in place; the model returns only
the error, which is all the verified properties depend on.) -/
def diagUpd (frame : List (List ℚ)) (bins : List (List ℚ)) (truths ymaxs : Option (List ℚ))
    (f : ℕ → DiagAxis) (x : ℕ) : Except PyErr (ℕ → DiagAxis) :=
  match bins[x]? with
  | none => Except.error PyErr.indexError
  | some edges =>
    match (match ymaxs with
           | some ys => ys[x]?
           | none => some (npMax (histDensities (col frame x) edges))) with
    | none => Except.error PyErr.indexError
    | some top =>
      match (match truths with
             | some ts => Option.map (fun t => (f x).lines ++ [t]) ts[x]?
             | none => some (f x).lines) with
      | none => Except.error PyErr.indexError
      | some nl =>
        Except.ok (fun j =>
          if j = x then
            DiagAxis.mk (f x).xlim top [(histDensities (col frame x) edges, edges)] nl
          else f j)

/-- One iteration of the scatter loop of `update_corner`
(src/prism.py lines 188-192) on the pair `p = (x, y)`:
`line = ax.get_lines()[0]` raises `IndexError` when the axis holds no line;
otherwise `line.set_data(data[:, y], data[:, x])` replaces the first line's
data in place. -/
def scatterUpd (frame : List (List ℚ)) (g : ℕ → ℕ → ScatterAxis) (p : ℕ × ℕ) :
    Except PyErr (ℕ → ℕ → ScatterAxis) :=
  match (g p.1 p.2).lines with
  | [] => Except.error PyErr.indexError
  | _ :: rest =>
    Except.ok (fun i j =>
      if i = p.1 ∧ j = p.2 then ScatterAxis.mk ((col frame p.2, col frame p.1) :: rest)
      else g i j)

/-- Embedding of `update_corner(data, fig, bins, truths, ymaxs, **kwargs)`
(src/prism.py lines 155-194): run the diagonal-histogram loop over
`range(ndim)`, then the scatter loop over the lower-triangle pairs, and
return the updated figure. -/
def updateCorner (frame : List (List ℚ)) (fig : Figure) (bins : List (List ℚ))
    (truths ymaxs : Option (List ℚ)) : Except PyErr Figure :=
  match foldE (diagUpd frame bins truths ymaxs) fig.diag (List.range (frameDim frame)) with
  | Except.error e => Except.error e
  | Except.ok diag2 =>
    match foldE (scatterUpd frame) fig.lower (pairList (frameDim frame)) with
    | Except.error e => Except.error e
    | Except.ok lower2 => Except.ok (Figure.mk fig.D diag2 lower2)

/-- Embedding of `iterate_corner(i, data_cube, fig, bins, truths, ymaxs, hist_kwargs)`
(src/prism.py lines 197-202): update the corner plot with frame `i`. -/
def iterate_corner (c : Cube) (i : ℕ) (fig : Figure) (bins : List (List ℚ))
    (truths ymaxs : Option (List ℚ)) : Except PyErr Figure :=
  updateCorner (cubeFrame c i) fig bins truths ymaxs

/-- The index-availability precondition of one diagonal iteration: `bins`,
and `truths` / `ymaxs` when given, reach index `x`.  This is exactly the
condition under which `diagUpd` succeeds, and it does not depend on the
axes' state. -/
def diagPre (bins : List (List ℚ)) (truths ymaxs : Option (List ℚ)) (x : ℕ) : Bool :=
  (bins[x]?).isSome &&
  (match truths with | some ts => (ts[x]?).isSome | none => true) &&
  (match ymaxs with | some ys => (ys[x]?).isSome | none => true)

/-- The y-limit chosen by a successful diagonal iteration on axis `x`:
`ymaxs[x]` when `ymaxs` is given, else the fresh histogram's own peak. -/
def diagTop (frame : List (List ℚ)) (bins : List (List ℚ)) (ymaxs : Option (List ℚ))
    (x : ℕ) : ℚ :=
  match ymaxs with
  | some ys => idx ys x 0
  | none => npMax (histDensities (col frame x) (idx bins x []))

/-- Modelled from the spec: the dimension check performed when `corner`
forwards `labels` and `truths` to the external `triangle.corner`
collaborator (src/prism.py lines 121-125; the collaborator is the `corner`
plotting package, which is not part of this repository).  Per the spec, a
labels or truth-value list whose length differs from the cube's parameter
count `D` is rejected with a dimension-mismatch error. -/
def dimsMismatch (D : ℕ) (labels : Option (List String)) (truths : Option (List ℚ)) : Bool :=
  (match labels with | some ls => ls.length != D | none => false) ||
  (match truths with | some ts => ts.length != D | none => false)

/-- Modelled from the spec: the figure-build step of `corner` fails with a
dimension-mismatch error when the labels or truths list length differs from
`D`, and otherwise succeeds (the successful figure construction itself is
delegated to the external plotting collaborator and is not modelled). -/
def buildFigureCheck (c : Cube) (labels : Option (List String)) (truths : Option (List ℚ)) :
    Except PyErr Unit :=
  if dimsMismatch c.D labels truths then Except.error PyErr.dimensionMismatch
  else Except.ok ()

/-- A small non-degenerate sample cube (2 timesteps, 2 walkers,
2 parameters) used to instantiate the verified properties. -/
def wCube : Cube := Cube.mk 2 2 2 (fun _ n _ => if n = 0 then 0 else 1)

/-- A sample cube whose single parameter is constant across the final
timestep (zero final-timestep spread) while spreading over earlier
timesteps: the degenerate-input scenario. -/
def degenCube : Cube := Cube.mk 2 2 1 (fun t n _ => if t = 0 then (if n = 0 then 0 else 1) else 5)

/-- A concrete 2-walker, 2-parameter frame. -/
def wFrame : List (List ℚ) := [[0, 10], [1, 11]]

/-- Concrete bin edges for two parameters. -/
def wBins : List (List ℚ) := [[0, 1, 2], [0, 1, 2]]

/-- A concrete figure whose lower-triangle axes each hold one line. -/
def wFig : Figure :=
  Figure.mk 2 (fun _ => DiagAxis.mk (0, 1) 1 [] [])
    (fun _ _ => ScatterAxis.mk [([0], [0])])

/-- A concrete figure whose lower-triangle axes hold no lines at all. -/
def wFigNoLines : Figure :=
  Figure.mk 2 (fun _ => DiagAxis.mk (0, 1) 1 [] []) (fun _ _ => ScatterAxis.mk [])

/-! ### Facts about the fold-based minima and maxima -/

theorem foldr_min_le_init (a : ℚ) (l : List ℚ) : l.foldr min a ≤ a := by
  induction l with
  | nil => exact le_refl a
  | cons b t ih => exact le_trans (min_le_right b (t.foldr min a)) ih

theorem foldr_min_le_mem {x : ℚ} (a : ℚ) {l : List ℚ} (hx : x ∈ l) : l.foldr min a ≤ x := by
  induction l with
  | nil => cases hx
  | cons b t ih =>
    rcases List.mem_cons.mp hx with h | h
    · exact h ▸ min_le_left b (t.foldr min a)
    · exact le_trans (min_le_right b (t.foldr min a)) (ih h)

theorem foldr_min_mem (a : ℚ) (l : List ℚ) : l.foldr min a = a ∨ l.foldr min a ∈ l := by
  induction l with
  | nil => exact Or.inl rfl
  | cons b t ih =>
    rcases min_choice b (t.foldr min a) with h | h
    · right
      rw [List.foldr_cons, h]
      exact List.mem_cons_self b t
    · rcases ih with h2 | h2
      · left
        rw [List.foldr_cons, h, h2]
      · right
        rw [List.foldr_cons, h]
        exact List.mem_cons_of_mem b h2

theorem init_le_foldr_max (a : ℚ) (l : List ℚ) : a ≤ l.foldr max a := by
  induction l with
  | nil => exact le_refl a
  | cons b t ih => exact le_trans ih (le_max_right b (t.foldr max a))

theorem mem_le_foldr_max {x : ℚ} (a : ℚ) {l : List ℚ} (hx : x ∈ l) : x ≤ l.foldr max a := by
  induction l with
  | nil => cases hx
  | cons b t ih =>
    rcases List.mem_cons.mp hx with h | h
    · exact h ▸ le_max_left b (t.foldr max a)
    · exact le_trans (ih h) (le_max_right b (t.foldr max a))

theorem foldr_max_mem (a : ℚ) (l : List ℚ) : l.foldr max a = a ∨ l.foldr max a ∈ l := by
  induction l with
  | nil => exact Or.inl rfl
  | cons b t ih =>
    rcases max_choice b (t.foldr max a) with h | h
    · right
      rw [List.foldr_cons, h]
      exact List.mem_cons_self b t
    · rcases ih with h2 | h2
      · left
        rw [List.foldr_cons, h, h2]
      · right
        rw [List.foldr_cons, h]
        exact List.mem_cons_of_mem b h2

theorem npMin_le_of_mem {x : ℚ} {l : List ℚ} (hx : x ∈ l) : npMin l ≤ x := by
  cases l with
  | nil => cases hx
  | cons a t =>
    rcases List.mem_cons.mp hx with h | h
    · exact h ▸ foldr_min_le_init a t
    · exact foldr_min_le_mem a h

theorem le_npMax_of_mem {x : ℚ} {l : List ℚ} (hx : x ∈ l) : x ≤ npMax l := by
  cases l with
  | nil => cases hx
  | cons a t =>
    rcases List.mem_cons.mp hx with h | h
    · exact h ▸ init_le_foldr_max a t
    · exact mem_le_foldr_max a h

theorem npMin_mem {l : List ℚ} (h : l ≠ []) : npMin l ∈ l := by
  cases l with
  | nil => exact absurd rfl h
  | cons a t =>
    rcases foldr_min_mem a t with h2 | h2
    · rw [npMin, h2]
      exact List.mem_cons_self a t
    · exact List.mem_cons_of_mem a h2

theorem npMax_mem {l : List ℚ} (h : l ≠ []) : npMax l ∈ l := by
  cases l with
  | nil => exact absurd rfl h
  | cons a t =>
    rcases foldr_max_mem a t with h2 | h2
    · rw [npMax, h2]
      exact List.mem_cons_self a t
    · exact List.mem_cons_of_mem a h2

theorem npMin_le_npMax {l : List ℚ} (h : l ≠ []) : npMin l ≤ npMax l := by
  cases l with
  | nil => exact absurd rfl h
  | cons a t => exact le_trans (foldr_min_le_init a t) (init_le_foldr_max a t)

theorem npMax_nonneg {l : List ℚ} (h : ∀ x ∈ l, 0 ≤ x) : 0 ≤ npMax l := by
  cases l with
  | nil => exact le_refl 0
  | cons a t =>
    exact le_trans (h a (List.mem_cons_self a t)) (init_le_foldr_max a t)

/-! ### Membership facts for the cube views -/

theorem mem_colVals {c : Cube} {d t n : ℕ} (ht : t < c.T) (hn : n < c.N) :
    c.val t n d ∈ colVals c d := by
  rw [colVals, List.mem_flatMap]
  exact ⟨t, List.mem_range.mpr ht, List.mem_map.mpr ⟨n, List.mem_range.mpr hn, rfl⟩⟩

theorem mem_finalVals {c : Cube} {d n : ℕ} (hn : n < c.N) :
    c.val (c.T - 1) n d ∈ finalVals c d :=
  List.mem_map.mpr ⟨n, List.mem_range.mpr hn, rfl⟩

theorem finalVals_subset {c : Cube} {d : ℕ} (hT : 1 ≤ c.T) {x : ℚ}
    (hx : x ∈ finalVals c d) : x ∈ colVals c d := by
  rw [finalVals, List.mem_map] at hx
  obtain ⟨n, hn, rfl⟩ := hx
  exact mem_colVals (Nat.sub_lt (lt_of_lt_of_le Nat.zero_lt_one hT) Nat.zero_lt_one)
    (List.mem_range.mp hn)

theorem finalVals_ne_nil {c : Cube} {d : ℕ} (hN : 1 ≤ c.N) : finalVals c d ≠ [] :=
  List.ne_nil_of_mem (mem_finalVals (lt_of_lt_of_le Nat.zero_lt_one hN))

theorem colVals_ne_nil {c : Cube} {d : ℕ} (hT : 1 ≤ c.T) (hN : 1 ≤ c.N) :
    colVals c d ≠ [] :=
  List.ne_nil_of_mem (mem_colVals (lt_of_lt_of_le Nat.zero_lt_one hT)
    (lt_of_lt_of_le Nat.zero_lt_one hN))

/-! ### Extent and bin facts -/

theorem paramMin_le_finalMin {c : Cube} {d : ℕ} (hT : 1 ≤ c.T) (hN : 1 ≤ c.N) :
    paramMin c d ≤ npMin (finalVals c d) :=
  npMin_le_of_mem (finalVals_subset hT (npMin_mem (finalVals_ne_nil hN)))

theorem finalMax_le_paramMax {c : Cube} {d : ℕ} (hT : 1 ≤ c.T) (hN : 1 ≤ c.N) :
    npMax (finalVals c d) ≤ paramMax c d :=
  le_npMax_of_mem (finalVals_subset hT (npMax_mem (finalVals_ne_nil hN)))

theorem finalSpread_le_spread {c : Cube} {d : ℕ} (hT : 1 ≤ c.T) (hN : 1 ≤ c.N) :
    npMax (finalVals c d) - npMin (finalVals c d) ≤ paramMax c d - paramMin c d :=
  sub_le_sub (finalMax_le_paramMax hT hN) (paramMin_le_finalMin hT hN)

theorem extent_lt {c : Cube} {d : ℕ} (hT : 1 ≤ c.T) (hN : 1 ≤ c.N)
    (hnd : npMin (finalVals c d) < npMax (finalVals c d)) :
    paramMin c d < paramMax c d :=
  lt_of_le_of_lt (paramMin_le_finalMin hT hN)
    (lt_of_lt_of_le hnd (finalMax_le_paramMax hT hN))

theorem dx_pos {c : Cube} {d : ℕ}
    (hnd : npMin (finalVals c d) < npMax (finalVals c d)) : 0 < dx c d := by
  rw [dx]
  exact div_pos (sub_pos.mpr hnd) (by norm_num [finalBins])

theorem nbins_ge {c : Cube} {d : ℕ} (hT : 1 ≤ c.T) (hN : 1 ≤ c.N)
    (hnd : npMin (finalVals c d) < npMax (finalVals c d)) :
    (50 : ℤ) ≤ nbins c d := by
  have hdx : 0 < dx c d := dx_pos hnd
  have hfs : npMax (finalVals c d) - npMin (finalVals c d) ≠ 0 :=
    ne_of_gt (sub_pos.mpr hnd)
  have h50 : (npMax (finalVals c d) - npMin (finalVals c d)) / dx c d = 50 := by
    rw [dx, div_div_eq_mul_div, mul_comm, mul_div_assoc, div_self hfs, mul_one]
    norm_num [finalBins]
  rw [nbins]
  apply Int.le_floor.mpr
  rw [show (((50 : ℤ) : ℚ)) = 50 by norm_num, ← h50]
  exact (div_le_div_iff_of_pos_right hdx).mpr (finalSpread_le_spread hT hN)

theorem nbins_toNat_ge {c : Cube} {d : ℕ} (hT : 1 ≤ c.T) (hN : 1 ≤ c.N)
    (hnd : npMin (finalVals c d) < npMax (finalVals c d)) :
    50 ≤ (nbins c d).toNat := by
  have h := nbins_ge hT hN hnd
  have hz : (0 : ℤ) ≤ nbins c d := le_trans (by norm_num) h
  exact (Int.le_toNat hz).mpr (by exact_mod_cast h)

theorem idx_map_range {β : Type} (g : ℕ → β) {D j : ℕ} (b : β) (h : j < D) :
    idx ((List.range D).map g) j b = g j := by
  rw [idx]
  simp [List.getElem?_map, List.getElem?_range, h]

theorem binEdges_eq {c : Cube} {d : ℕ} (hT : 1 ≤ c.T) (hN : 1 ≤ c.N)
    (hnd : npMin (finalVals c d) < npMax (finalVals c d)) :
    binEdges c d = (List.range (nbins c d).toNat).map
      (fun (i : ℕ) => paramMin c d +
        (i : ℚ) * (paramMax c d - paramMin c d) / ((nbins c d).toNat : ℚ)) := by
  have hn : 1 ≤ (nbins c d).toNat := le_trans (by norm_num) (nbins_toNat_ge hT hN hnd)
  rw [binEdges, linspace, if_neg (by omega)]
  rw [List.range_succ, List.map_append, List.map_singleton, List.dropLast_concat]
  simp only [Nat.cast_add, Nat.cast_one, add_sub_cancel_right]

theorem edge_strictMono {a b : ℚ} {n : ℕ} (hab : a < b) (hn : 0 < n) {i j : ℕ}
    (hij : i < j) :
    a + (i : ℚ) * (b - a) / (n : ℚ) < a + (j : ℚ) * (b - a) / (n : ℚ) := by
  have hs : 0 < (b - a) / (n : ℚ) :=
    div_pos (sub_pos.mpr hab) (by exact_mod_cast hn)
  have hm : (i : ℚ) * ((b - a) / (n : ℚ)) < (j : ℚ) * ((b - a) / (n : ℚ)) :=
    mul_lt_mul_of_pos_right (by exact_mod_cast hij) hs
  rw [mul_div_assoc, mul_div_assoc]
  exact add_lt_add_left hm a

theorem edge_top {a b : ℚ} {n : ℕ} (hn : 0 < n) :
    a + (n : ℚ) * (b - a) / (n : ℚ) = b := by
  have hz : (n : ℚ) ≠ 0 := by exact_mod_cast Nat.pos_iff_ne_zero.mp hn
  rw [mul_comm, mul_div_assoc, div_self hz, mul_one]
  ring

/-! ### Facts about the stride slice -/

theorem mem_sliceIndices {T k i : ℕ} : i ∈ sliceIndices T k ↔ i < T ∧ i % k = 0 := by
  rw [sliceIndices, List.mem_filter, List.mem_range]
  simp

theorem sliceIndices_pairwise (T k : ℕ) :
    List.Pairwise (fun p q => p < q) (sliceIndices T k) :=
  List.Pairwise.filter _ (List.pairwise_lt_range T)

theorem sliceIndices_head {T k : ℕ} (hT : 1 ≤ T) :
    (sliceIndices T k).head? = some 0 := by
  obtain ⟨m, rfl⟩ : ∃ m, T = m + 1 := ⟨T - 1, by omega⟩
  rw [sliceIndices, List.range_succ_eq_map, List.filter_cons]
  simp

/-! ### Facts about the lower-triangle pair list -/

theorem mem_pairList {D : ℕ} {p : ℕ × ℕ} : p ∈ pairList D ↔ p.2 < p.1 ∧ p.1 < D := by
  rw [pairList, List.mem_flatMap]
  constructor
  · rintro ⟨x, hx, hp⟩
    rw [List.mem_map] at hp
    obtain ⟨y, hy, rfl⟩ := hp
    exact ⟨List.mem_range.mp hy, List.mem_range.mp hx⟩
  · rintro ⟨h1, h2⟩
    exact ⟨p.1, List.mem_range.mpr h2, List.mem_map.mpr ⟨p.2, List.mem_range.mpr h1, rfl⟩⟩

theorem pairList_nodup (D : ℕ) : (pairList D).Nodup := by
  rw [pairList, List.nodup_flatMap]
  constructor
  · intro x _
    exact (List.nodup_range x).map (fun a b h => congrArg Prod.snd h)
  · apply List.Pairwise.imp ?imp (List.pairwise_lt_range D)
    intro a b hab q hq1 hq2
    rw [List.mem_map] at hq1 hq2
    obtain ⟨y1, _, rfl⟩ := hq1
    obtain ⟨y2, _, heq⟩ := hq2
    exact absurd (congrArg Prod.fst heq) (Nat.ne_of_lt hab).symm

/-! ### Step lemmas for the diagonal-histogram loop -/

theorem diagUpd_err_pre {frame : List (List ℚ)} {bins : List (List ℚ)}
    {truths ymaxs : Option (List ℚ)} {f : ℕ → DiagAxis} {x : ℕ} {e : PyErr}
    (h : diagUpd frame bins truths ymaxs f x = Except.error e) :
    diagPre bins truths ymaxs x = false := by
  rw [diagUpd.eq_def] at h
  cases hbe : bins[x]? with
  | none => simp [diagPre, hbe]
  | some edges =>
    simp only [hbe] at h
    cases ymaxs with
    | none =>
      cases truths with
      | none => exact Except.noConfusion h
      | some ts =>
        cases hts : ts[x]? with
        | none => simp [diagPre, hts]
        | some tv =>
          simp only [hts, Option.map_some'] at h
          exact Except.noConfusion h
    | some ys =>
      cases hys : ys[x]? with
      | none => simp [diagPre, hys]
      | some yv =>
        simp only [hys] at h
        cases truths with
        | none => exact Except.noConfusion h
        | some ts =>
          cases hts : ts[x]? with
          | none => simp [diagPre, hts]
          | some tv =>
            simp only [hts, Option.map_some'] at h
            exact Except.noConfusion h

theorem diagUpd_ok (frame : List (List ℚ)) {bins : List (List ℚ)}
    {truths ymaxs : Option (List ℚ)} (f : ℕ → DiagAxis) {x : ℕ}
    (h : diagPre bins truths ymaxs x = true) :
    ∃ f', diagUpd frame bins truths ymaxs f x = Except.ok f' := by
  cases hr : diagUpd frame bins truths ymaxs f x with
  | ok f' => exact ⟨f', rfl⟩
  | error e =>
    rw [diagUpd_err_pre hr] at h
    exact Bool.noConfusion h

theorem diagUpd_val {frame : List (List ℚ)} {bins : List (List ℚ)}
    {truths ymaxs : Option (List ℚ)} {f f' : ℕ → DiagAxis} {x : ℕ}
    (h : diagUpd frame bins truths ymaxs f x = Except.ok f') :
    (∀ j, j ≠ x → f' j = f j) ∧
    (f' x).patches = [(histDensities (col frame x) (idx bins x []), idx bins x [])] ∧
    (f' x).xlim = (f x).xlim ∧
    (f' x).ylimTop = diagTop frame bins ymaxs x := by
  rw [diagUpd.eq_def] at h
  cases hbe : bins[x]? with
  | none =>
    simp only [hbe] at h
    exact Except.noConfusion h
  | some edges =>
    simp only [hbe] at h
    have hedge : idx bins x [] = edges := by
      rw [idx, hbe]
      rfl
    cases ymaxs with
    | none =>
      have htop : diagTop frame bins none x = npMax (histDensities (col frame x) edges) := by
        rw [diagTop, hedge]
      cases truths with
      | none =>
        cases h
        refine ⟨fun j hj => if_neg hj, ?_, ?_, ?_⟩ <;> simp [hedge, htop]
      | some ts =>
        cases hts : ts[x]? with
        | none =>
          simp only [hts, Option.map_none'] at h
          exact Except.noConfusion h
        | some tv =>
          simp only [hts, Option.map_some'] at h
          cases h
          refine ⟨fun j hj => if_neg hj, ?_, ?_, ?_⟩ <;> simp [hedge, htop]
    | some ys =>
      cases hys : ys[x]? with
      | none =>
        simp only [hys] at h
        exact Except.noConfusion h
      | some yv =>
        simp only [hys] at h
        have htop : diagTop frame bins (some ys) x = yv := by
          rw [diagTop, idx, hys]
          rfl
        cases truths with
        | none =>
          cases h
          refine ⟨fun j hj => if_neg hj, ?_, ?_, ?_⟩ <;> simp [hedge, htop]
        | some ts =>
          cases hts : ts[x]? with
          | none =>
            simp only [hts, Option.map_none'] at h
            exact Except.noConfusion h
          | some tv =>
            simp only [hts, Option.map_some'] at h
            cases h
            refine ⟨fun j hj => if_neg hj, ?_, ?_, ?_⟩ <;> simp [hedge, htop]

/-! ### Step lemmas for the scatter loop -/

theorem scatterUpd_err {frame : List (List ℚ)} {g : ℕ → ℕ → ScatterAxis} {p : ℕ × ℕ}
    (h : (g p.1 p.2).lines = []) :
    scatterUpd frame g p = Except.error PyErr.indexError := by
  rw [scatterUpd, h]

theorem scatterUpd_val {frame : List (List ℚ)} {g g' : ℕ → ℕ → ScatterAxis} {p : ℕ × ℕ}
    (h : scatterUpd frame g p = Except.ok g') :
    (g p.1 p.2).lines ≠ [] ∧
    g' = fun i j =>
      if i = p.1 ∧ j = p.2 then
        ScatterAxis.mk ((col frame p.2, col frame p.1) :: (g p.1 p.2).lines.tail)
      else g i j := by
  cases hl : (g p.1 p.2).lines with
  | nil =>
    rw [scatterUpd, hl] at h
    exact Except.noConfusion h
  | cons ln rest =>
    rw [scatterUpd, hl] at h
    cases h
    exact ⟨List.cons_ne_nil ln rest, rfl⟩

theorem scatterUpd_ok (frame : List (List ℚ)) {g : ℕ → ℕ → ScatterAxis} {p : ℕ × ℕ}
    (h : (g p.1 p.2).lines ≠ []) :
    ∃ g', scatterUpd frame g p = Except.ok g' := by
  cases hl : (g p.1 p.2).lines with
  | nil => exact absurd hl h
  | cons ln rest =>
    rw [scatterUpd, hl]
    exact ⟨_, rfl⟩

/-! ### Loop lemmas for the diagonal-histogram loop -/

theorem foldE_diag_pres {frame : List (List ℚ)} {bins : List (List ℚ)}
    {truths ymaxs : Option (List ℚ)} :
    ∀ (l : List ℕ) (f f' : ℕ → DiagAxis),
      foldE (diagUpd frame bins truths ymaxs) f l = Except.ok f' →
      ∀ j, (∀ x ∈ l, j ≠ x) → f' j = f j := by
  intro l
  induction l with
  | nil =>
    intro f f' h j _
    cases h
    rfl
  | cons a t ih =>
    intro f f' h j hj
    simp only [foldE] at h
    cases hs : diagUpd frame bins truths ymaxs f a with
    | error e =>
      rw [hs] at h
      exact Except.noConfusion h
    | ok f1 =>
      rw [hs] at h
      have h1 := ih f1 f' h j (fun x hx => hj x (List.mem_cons_of_mem a hx))
      rw [h1]
      exact (diagUpd_val hs).1 j (hj a (List.mem_cons_self a t))

theorem foldE_diag_val {frame : List (List ℚ)} {bins : List (List ℚ)}
    {truths ymaxs : Option (List ℚ)} :
    ∀ (l : List ℕ), l.Nodup → ∀ (f f' : ℕ → DiagAxis),
      foldE (diagUpd frame bins truths ymaxs) f l = Except.ok f' →
      ∀ x ∈ l,
        (f' x).patches = [(histDensities (col frame x) (idx bins x []), idx bins x [])] ∧
        (f' x).xlim = (f x).xlim ∧
        (f' x).ylimTop = diagTop frame bins ymaxs x := by
  intro l
  induction l with
  | nil =>
    intro _ f f' _ x hx
    cases hx
  | cons a t ih =>
    intro hnd f f' h x hx
    rw [List.nodup_cons] at hnd
    simp only [foldE] at h
    cases hs : diagUpd frame bins truths ymaxs f a with
    | error e =>
      rw [hs] at h
      exact Except.noConfusion h
    | ok f1 =>
      rw [hs] at h
      rcases List.mem_cons.mp hx with rfl | hxt
      · have hp := foldE_diag_pres t f1 f' h x (fun z hz => by
          rintro rfl
          exact hnd.1 hz)
        rw [hp]
        have hv := diagUpd_val hs
        exact ⟨hv.2.1, hv.2.2.1, hv.2.2.2⟩
      · have hxa : x ≠ a := fun hh => hnd.1 (hh ▸ hxt)
        have hv := ih hnd.2 f1 f' h x hxt
        rw [(diagUpd_val hs).1 x hxa] at hv
        exact hv

theorem foldE_diag_ok (frame : List (List ℚ)) {bins : List (List ℚ)}
    {truths ymaxs : Option (List ℚ)} :
    ∀ (l : List ℕ), (∀ x ∈ l, diagPre bins truths ymaxs x = true) →
      ∀ f, ∃ f', foldE (diagUpd frame bins truths ymaxs) f l = Except.ok f' := by
  intro l
  induction l with
  | nil =>
    intro _ f
    exact ⟨f, rfl⟩
  | cons a t ih =>
    intro h f
    obtain ⟨f1, hf1⟩ := diagUpd_ok frame f (h a (List.mem_cons_self a t))
    obtain ⟨f', hf'⟩ := ih (fun x hx => h x (List.mem_cons_of_mem a hx)) f1
    refine ⟨f', ?_⟩
    simp only [foldE, hf1]
    exact hf'

/-! ### Loop lemmas for the scatter loop -/

theorem foldE_scatter_pres {frame : List (List ℚ)} :
    ∀ (l : List (ℕ × ℕ)) (g g' : ℕ → ℕ → ScatterAxis),
      foldE (scatterUpd frame) g l = Except.ok g' →
      ∀ i j, (∀ q ∈ l, ¬(i = q.1 ∧ j = q.2)) → g' i j = g i j := by
  intro l
  induction l with
  | nil =>
    intro g g' h i j _
    cases h
    rfl
  | cons a t ih =>
    intro g g' h i j hj
    simp only [foldE] at h
    cases hs : scatterUpd frame g a with
    | error e =>
      rw [hs] at h
      exact Except.noConfusion h
    | ok g1 =>
      rw [hs] at h
      have h1 := ih g1 g' h i j (fun q hq => hj q (List.mem_cons_of_mem a hq))
      rw [h1]
      simp only [(scatterUpd_val hs).2]
      exact if_neg (hj a (List.mem_cons_self a t))

theorem foldE_scatter_val {frame : List (List ℚ)} :
    ∀ (l : List (ℕ × ℕ)), l.Nodup → ∀ (g g' : ℕ → ℕ → ScatterAxis),
      foldE (scatterUpd frame) g l = Except.ok g' →
      ∀ p ∈ l, (g p.1 p.2).lines ≠ [] ∧
        g' p.1 p.2 = ScatterAxis.mk
          ((col frame p.2, col frame p.1) :: (g p.1 p.2).lines.tail) := by
  intro l
  induction l with
  | nil =>
    intro _ g g' _ p hp
    cases hp
  | cons a t ih =>
    intro hnd g g' h p hp
    rw [List.nodup_cons] at hnd
    simp only [foldE] at h
    cases hs : scatterUpd frame g a with
    | error e =>
      rw [hs] at h
      exact Except.noConfusion h
    | ok g1 =>
      rw [hs] at h
      have hv := scatterUpd_val hs
      rcases List.mem_cons.mp hp with rfl | hpt
      · have hpres := foldE_scatter_pres t g1 g' h p.1 p.2 (fun q hq hc => by
          have : p = q := Prod.ext hc.1 hc.2
          exact hnd.1 (this ▸ hq))
        refine ⟨hv.1, ?_⟩
        rw [hpres]
        simp [hv.2]
      · have hpa : ¬(p.1 = a.1 ∧ p.2 = a.2) := by
          rintro ⟨h1, h2⟩
          exact hnd.1 (Prod.ext h1 h2 ▸ hpt)
        have hga : g1 p.1 p.2 = g p.1 p.2 := by
          simp only [hv.2]
          exact if_neg hpa
        have hrec := ih hnd.2 g1 g' h p hpt
        rw [hga] at hrec
        exact hrec

theorem foldE_scatter_ok (frame : List (List ℚ)) :
    ∀ (l : List (ℕ × ℕ)) (g : ℕ → ℕ → ScatterAxis),
      (∀ p ∈ l, (g p.1 p.2).lines ≠ []) →
      ∃ g', foldE (scatterUpd frame) g l = Except.ok g' := by
  intro l
  induction l with
  | nil =>
    intro g _
    exact ⟨g, rfl⟩
  | cons a t ih =>
    intro g h
    obtain ⟨g1, hg1⟩ := scatterUpd_ok frame (h a (List.mem_cons_self a t))
    have hnext : ∀ p ∈ t, (g1 p.1 p.2).lines ≠ [] := by
      intro p hp
      simp only [(scatterUpd_val hg1).2]
      by_cases hc : p.1 = a.1 ∧ p.2 = a.2
      · rw [if_pos hc]
        exact List.cons_ne_nil _ _
      · rw [if_neg hc]
        exact h p (List.mem_cons_of_mem a hp)
    obtain ⟨g', hg'⟩ := ih g1 hnext
    refine ⟨g', ?_⟩
    simp only [foldE, hg1]
    exact hg'

theorem foldE_scatter_err {frame : List (List ℚ)} :
    ∀ (l : List (ℕ × ℕ)) (g : ℕ → ℕ → ScatterAxis) (p : ℕ × ℕ), p ∈ l →
      (g p.1 p.2).lines = [] →
      ∀ g', foldE (scatterUpd frame) g l ≠ Except.ok g' := by
  intro l
  induction l with
  | nil =>
    intro g p hp
    cases hp
  | cons a t ih =>
    intro g p hp hlines g' hok
    simp only [foldE] at hok
    cases hs : scatterUpd frame g a with
    | error e =>
      rw [hs] at hok
      exact Except.noConfusion hok
    | ok g1 =>
      rw [hs] at hok
      have hv := scatterUpd_val hs
      rcases List.mem_cons.mp hp with rfl | hpt
      · exact hv.1 hlines
      · by_cases hc : p.1 = a.1 ∧ p.2 = a.2
        · exact hv.1 (hc.1 ▸ hc.2 ▸ hlines)
        · have hga : g1 p.1 p.2 = g p.1 p.2 := by
            simp only [hv.2]
            exact if_neg hc
          exact ih g1 p hpt (hga ▸ hlines) g' hok

/-! ### Assembled update lemmas -/

theorem updateCorner_eq {frame : List (List ℚ)} {fig : Figure} {bins : List (List ℚ)}
    {truths ymaxs : Option (List ℚ)} {dg : ℕ → DiagAxis} {lw : ℕ → ℕ → ScatterAxis}
    (hdg : foldE (diagUpd frame bins truths ymaxs) fig.diag
      (List.range (frameDim frame)) = Except.ok dg)
    (hlw : foldE (scatterUpd frame) fig.lower (pairList (frameDim frame)) = Except.ok lw) :
    updateCorner frame fig bins truths ymaxs = Except.ok (Figure.mk fig.D dg lw) := by
  rw [updateCorner.eq_def, hdg, hlw]

theorem updateCorner_shape {frame : List (List ℚ)} {fig fig' : Figure}
    {bins : List (List ℚ)} {truths ymaxs : Option (List ℚ)}
    (h : updateCorner frame fig bins truths ymaxs = Except.ok fig') :
    ∃ dg lw,
      foldE (diagUpd frame bins truths ymaxs) fig.diag
        (List.range (frameDim frame)) = Except.ok dg ∧
      foldE (scatterUpd frame) fig.lower (pairList (frameDim frame)) = Except.ok lw ∧
      fig' = Figure.mk fig.D dg lw := by
  rw [updateCorner.eq_def] at h
  cases hdg : foldE (diagUpd frame bins truths ymaxs) fig.diag
      (List.range (frameDim frame)) with
  | error e =>
    simp only [hdg] at h
    exact Except.noConfusion h
  | ok dg =>
    simp only [hdg] at h
    cases hlw : foldE (scatterUpd frame) fig.lower (pairList (frameDim frame)) with
    | error e =>
      simp only [hlw] at h
      exact Except.noConfusion h
    | ok lw =>
      simp only [hlw] at h
      cases h
      exact ⟨dg, lw, rfl, rfl, rfl⟩


/-! ### Frame and column lemmas -/

theorem frameDim_cubeFrame {c : Cube} (i : ℕ) (hN : 1 ≤ c.N) :
    frameDim (cubeFrame c i) = c.D := by
  obtain ⟨m, hm⟩ : ∃ m, c.N = m + 1 := ⟨c.N - 1, by omega⟩
  rw [frameDim, cubeFrame, hm, List.range_succ_eq_map, List.map_cons]
  simp

theorem col_cubeFrame {c : Cube} {i d : ℕ} (hd : d < c.D) :
    col (cubeFrame c i) d = (List.range c.N).map (fun n => c.val i n d) := by
  rw [col, cubeFrame, List.map_map]
  apply List.map_congr_left
  intro n _
  exact idx_map_range (fun d2 => c.val i n d2) 0 hd

theorem colVals_shape {c : Cube} {d : ℕ} {x : ℚ} (hx : x ∈ colVals c d) :
    ∃ t n, t < c.T ∧ n < c.N ∧ x = c.val t n d := by
  rw [colVals, List.mem_flatMap] at hx
  obtain ⟨t, ht, hx⟩ := hx
  rw [List.mem_map] at hx
  obtain ⟨n, hn, rfl⟩ := hx
  exact ⟨t, n, List.mem_range.mp ht, List.mem_range.mp hn, rfl⟩

/-! ### Claim theorems -/

/-- C4: for every sample cube with at least one timestep and one walker, the
extent computation produces exactly `D` pairs, pair `d` being the minimum and
maximum of parameter `d` over all timesteps and walkers (both bounds are
attained by actual samples), and in each pair the minimum is at most the
maximum. -/
theorem corner_extent (c : Cube) (hT : 1 ≤ c.T) (hN : 1 ≤ c.N) :
    (extremes c).length = c.D ∧
    (∀ d, d < c.D → (extremes c)[d]? = some (paramMin c d, paramMax c d)) ∧
    (∀ d t n, t < c.T → n < c.N →
      paramMin c d ≤ c.val t n d ∧ c.val t n d ≤ paramMax c d) ∧
    (∀ d, ∃ t n, t < c.T ∧ n < c.N ∧ paramMin c d = c.val t n d) ∧
    (∀ d, ∃ t n, t < c.T ∧ n < c.N ∧ paramMax c d = c.val t n d) ∧
    (∀ d, paramMin c d ≤ paramMax c d) := by
  refine ⟨?_, ?_, ?_, ?_, ?_, ?_⟩
  · rw [extremes]
    simp
  · intro d hd
    rw [extremes]
    simp [List.getElem?_map, List.getElem?_range, hd]
  · intro d t n ht hn
    exact ⟨npMin_le_of_mem (mem_colVals ht hn), le_npMax_of_mem (mem_colVals ht hn)⟩
  · intro d
    obtain ⟨t, n, ht, hn, hv⟩ := colVals_shape (npMin_mem (colVals_ne_nil hT hN))
    exact ⟨t, n, ht, hn, hv⟩
  · intro d
    obtain ⟨t, n, ht, hn, hv⟩ := colVals_shape (npMax_mem (colVals_ne_nil hT hN))
    exact ⟨t, n, ht, hn, hv⟩
  · intro d
    exact npMin_le_npMax (colVals_ne_nil hT hN)

/-- C4 witness: the extent properties instantiated at the concrete cube
`wCube`. -/
theorem corner_extent_witness :
    (1 ≤ wCube.T ∧ 1 ≤ wCube.N) ∧
    ((extremes wCube).length = wCube.D ∧
     (∀ d, d < wCube.D → (extremes wCube)[d]? = some (paramMin wCube d, paramMax wCube d)) ∧
     (∀ d t n, t < wCube.T → n < wCube.N →
       paramMin wCube d ≤ wCube.val t n d ∧ wCube.val t n d ≤ paramMax wCube d) ∧
     (∀ d, ∃ t n, t < wCube.T ∧ n < wCube.N ∧ paramMin wCube d = wCube.val t n d) ∧
     (∀ d, ∃ t n, t < wCube.T ∧ n < wCube.N ∧ paramMax wCube d = wCube.val t n d) ∧
     (∀ d, paramMin wCube d ≤ paramMax wCube d)) :=
  ⟨⟨by decide, by decide⟩, corner_extent wCube (by decide) (by decide)⟩

/-- C1: for a parameter whose final-timestep spread is non-degenerate, the
bin count is `⌊extent-width / dx⌋` (a positive integer, in fact at least 50),
and the bin edges are the `bin-count + 1` evenly spaced points spanning the
extent with the last point dropped — explicitly, the `bin-count` points
`min + i·(max − min)/bin-count` for `i < bin-count` — so the edge list has
length `bin-count` and is strictly increasing. -/
theorem corner_bin_edges (c : Cube) (d : ℕ) (hT : 1 ≤ c.T) (hN : 1 ≤ c.N)
    (hnd : npMin (finalVals c d) < npMax (finalVals c d)) :
    nbins c d = ⌊(paramMax c d - paramMin c d) / dx c d⌋ ∧
    0 < (nbins c d).toNat ∧
    binEdges c d =
      (linspace (paramMin c d) (paramMax c d) ((nbins c d).toNat + 1)).dropLast ∧
    binEdges c d = (List.range (nbins c d).toNat).map
      (fun (i : ℕ) => paramMin c d +
        (i : ℚ) * (paramMax c d - paramMin c d) / ((nbins c d).toNat : ℚ)) ∧
    (binEdges c d).length = (nbins c d).toNat ∧
    List.Pairwise (fun p q => p < q) (binEdges c d) := by
  have h50 := nbins_toNat_ge hT hN hnd
  have hedges := binEdges_eq hT hN hnd
  have hab := extent_lt hT hN hnd
  refine ⟨rfl, by omega, rfl, hedges, ?_, ?_⟩
  · rw [hedges]
    simp
  · rw [hedges]
    exact List.Pairwise.map _
      (fun a b hlt => edge_strictMono hab (by omega) hlt)
      (List.pairwise_lt_range _)

/-- C1 witness: the bin-edge properties instantiated at parameter 0 of the
concrete cube `wCube`, whose final-timestep spread is 1. -/
theorem corner_bin_edges_witness :
    (1 ≤ wCube.T ∧ 1 ≤ wCube.N ∧
      npMin (finalVals wCube 0) < npMax (finalVals wCube 0)) ∧
    (nbins wCube 0 = ⌊(paramMax wCube 0 - paramMin wCube 0) / dx wCube 0⌋ ∧
     0 < (nbins wCube 0).toNat ∧
     binEdges wCube 0 =
       (linspace (paramMin wCube 0) (paramMax wCube 0) ((nbins wCube 0).toNat + 1)).dropLast ∧
     binEdges wCube 0 = (List.range (nbins wCube 0).toNat).map
       (fun (i : ℕ) => paramMin wCube 0 +
         (i : ℚ) * (paramMax wCube 0 - paramMin wCube 0) / ((nbins wCube 0).toNat : ℚ)) ∧
     (binEdges wCube 0).length = (nbins wCube 0).toNat ∧
     List.Pairwise (fun p q => p < q) (binEdges wCube 0)) :=
  ⟨⟨by decide, by decide, by decide⟩,
   corner_bin_edges wCube 0 (by decide) (by decide) (by decide)⟩

/-- C10: for a non-degenerate parameter (which forces the extent minimum to
be strictly below the extent maximum), every computed bin edge is strictly
below the extent maximum; the point of the linspace that equals the extent
maximum is exactly the dropped last point. -/
theorem corner_max_edge_dropped (c : Cube) (d : ℕ) (hT : 1 ≤ c.T) (hN : 1 ≤ c.N)
    (hnd : npMin (finalVals c d) < npMax (finalVals c d)) :
    paramMin c d < paramMax c d ∧
    (∀ e ∈ binEdges c d, e < paramMax c d) ∧
    (linspace (paramMin c d) (paramMax c d) ((nbins c d).toNat + 1)).getLast?
      = some (paramMax c d) := by
  have h50 := nbins_toNat_ge hT hN hnd
  have hab := extent_lt hT hN hnd
  have hn : 0 < (nbins c d).toNat := by omega
  refine ⟨hab, ?_, ?_⟩
  · rw [binEdges_eq hT hN hnd]
    intro e he
    rw [List.mem_map] at he
    obtain ⟨i, hi, rfl⟩ := he
    have hlt := edge_strictMono hab hn (List.mem_range.mp hi)
    rw [edge_top hn] at hlt
    exact hlt
  · rw [linspace, if_neg (by omega), List.range_succ, List.map_append,
      List.map_singleton, List.getLast?_concat]
    have hcast : (((nbins c d).toNat + 1 : ℕ) : ℚ) - 1 = ((nbins c d).toNat : ℚ) := by
      push_cast
      ring
    rw [hcast, edge_top hn]

/-- C10 witness: the dropped-maximum properties instantiated at parameter 0
of the concrete cube `wCube`. -/
theorem corner_max_edge_dropped_witness :
    (1 ≤ wCube.T ∧ 1 ≤ wCube.N ∧
      npMin (finalVals wCube 0) < npMax (finalVals wCube 0)) ∧
    (paramMin wCube 0 < paramMax wCube 0 ∧
     (∀ e ∈ binEdges wCube 0, e < paramMax wCube 0) ∧
     (linspace (paramMin wCube 0) (paramMax wCube 0) ((nbins wCube 0).toNat + 1)).getLast?
       = some (paramMax wCube 0)) :=
  ⟨⟨by decide, by decide, by decide⟩,
   corner_max_edge_dropped wCube 0 (by decide) (by decide) (by decide)⟩

/-- C6: for a non-degenerate parameter, the y-axis cap equals `1.1` times the
peak of the (normalised) histogram of the final timestep's samples over the
computed bin edges, and is therefore at least that peak. -/
theorem corner_ymax (c : Cube) (d : ℕ) (hT : 1 ≤ c.T) (hN : 1 ≤ c.N)
    (hnd : npMin (finalVals c d) < npMax (finalVals c d)) :
    ymax c d = 11 / 10 * npMax (histDensities (finalVals c d) (binEdges c d)) ∧
    npMax (histDensities (finalVals c d) (binEdges c d)) ≤ ymax c d := by
  have h50 := nbins_toNat_ge hT hN hnd
  have hedges := binEdges_eq hT hN hnd
  have hab := extent_lt hT hN hnd
  have hn : 0 < (nbins c d).toNat := by omega
  have hlen : (binEdges c d).length = (nbins c d).toNat := by
    rw [hedges]
    simp
  refine ⟨rfl, ?_⟩
  have hpeak : 0 ≤ npMax (histDensities (finalVals c d) (binEdges c d)) := by
    apply npMax_nonneg
    intro v hv
    rw [histDensities, List.mem_map] at hv
    obtain ⟨j, hj, rfl⟩ := hv
    rw [List.mem_range, hlen] at hj
    have hj1 : j + 1 < (nbins c d).toNat := by omega
    have hj0 : j < (nbins c d).toNat := by omega
    have e1 : idx (binEdges c d) j 0 = paramMin c d +
        (j : ℚ) * (paramMax c d - paramMin c d) / ((nbins c d).toNat : ℚ) := by
      rw [hedges]
      exact idx_map_range _ 0 hj0
    have e2 : idx (binEdges c d) (j + 1) 0 = paramMin c d +
        ((j + 1 : ℕ) : ℚ) * (paramMax c d - paramMin c d) / ((nbins c d).toNat : ℚ) := by
      rw [hedges]
      exact idx_map_range _ 0 hj1
    apply div_nonneg (Nat.cast_nonneg _)
    apply mul_nonneg ?_ (Nat.cast_nonneg _)
    rw [e1, e2]
    exact sub_nonneg.mpr (le_of_lt (edge_strictMono hab hn (by omega)))
  rw [ymax]
  linarith

/-- C6 witness: the y-cap properties instantiated at parameter 0 of the
concrete cube `wCube`. -/
theorem corner_ymax_witness :
    (1 ≤ wCube.T ∧ 1 ≤ wCube.N ∧
      npMin (finalVals wCube 0) < npMax (finalVals wCube 0)) ∧
    (ymax wCube 0 = 11 / 10 * npMax (histDensities (finalVals wCube 0) (binEdges wCube 0)) ∧
     npMax (histDensities (finalVals wCube 0) (binEdges wCube 0)) ≤ ymax wCube 0) :=
  ⟨⟨by decide, by decide, by decide⟩,
   corner_ymax wCube 0 (by decide) (by decide) (by decide)⟩

/-- C3: on a sample cube whose single parameter is constant across the final
timestep (`degenCube`, final samples all `5` while earlier timesteps spread
over `{0, 1}`), the setup loop of `corner` raises no degenerate-distribution
error anywhere: it computes `dx = 0`, then derives the bin count from a
division by zero (`0` in the rational model; a non-finite value with only a
runtime warning in numpy) and silently builds an empty bin-edge list.  This
contradicts the claim that the computation fails with an explicit
degenerate-distribution error. -/
theorem corner_degenerate_silent :
    npMax (finalVals degenCube 0) - npMin (finalVals degenCube 0) = 0 ∧
    dx degenCube 0 = 0 ∧
    nbins degenCube 0 = 0 ∧
    binEdges degenCube 0 = [] ∧
    binsList degenCube = [[]] := by
  have hf : finalVals degenCube 0 = [5, 5] := by decide
  have hspread : npMax (finalVals degenCube 0) - npMin (finalVals degenCube 0) = 0 := by
    rw [hf]
    norm_num [npMax, npMin]
  have hdx : dx degenCube 0 = 0 := by
    rw [dx, hspread]
    norm_num
  have hnb : nbins degenCube 0 = 0 := by
    rw [nbins, hdx, div_zero]
    exact Int.floor_zero
  have hedges : binEdges degenCube 0 = [] := by
    rw [binEdges, hnb]
    rfl
  refine ⟨hspread, hdx, hnb, hedges, ?_⟩
  have hD : degenCube.D = 1 := rfl
  have hr1 : List.range 1 = [0] := rfl
  rw [binsList, hD, hr1, List.map_singleton, hedges]

/-- C2: the thinning factor is `⌊⌊T / rough_length⌋ / fps⌋`; when it exceeds
1 the retained frames are exactly the timesteps below `T` that are multiples
of the factor (a strictly increasing sequence starting at frame 0) and the
samples-per-frame parameter is multiplied by the factor, and otherwise all
`T` frames are retained with samples-per-frame unchanged. -/
theorem corner_thinning (T fps : ℕ) (rough spf : ℚ) (hr : 0 < rough) (hf : 0 < fps) :
    thin_factor T fps rough = ⌊((⌊(T : ℚ) / rough⌋ : ℤ) : ℚ) / (fps : ℚ)⌋ ∧
    (1 < thin_factor T fps rough →
      (∀ i, i ∈ retainedFrames T fps rough ↔
        i < T ∧ i % (thin_factor T fps rough).toNat = 0) ∧
      List.Pairwise (fun p q => p < q) (retainedFrames T fps rough) ∧
      (1 ≤ T → (retainedFrames T fps rough).head? = some 0) ∧
      newSampsPerFrame spf T fps rough = spf * ((thin_factor T fps rough : ℤ) : ℚ)) ∧
    (¬ 1 < thin_factor T fps rough →
      retainedFrames T fps rough = List.range T ∧
      newSampsPerFrame spf T fps rough = spf) := by
  refine ⟨rfl, ?_, ?_⟩
  · intro h1
    have hret : retainedFrames T fps rough =
        sliceIndices T (thin_factor T fps rough).toNat := by
      rw [retainedFrames, if_pos h1]
    refine ⟨?_, ?_, ?_, ?_⟩
    · intro i
      rw [hret]
      exact mem_sliceIndices
    · rw [hret]
      exact sliceIndices_pairwise _ _
    · intro hT
      rw [hret]
      exact sliceIndices_head hT
    · rw [newSampsPerFrame, if_pos h1]
  · intro h1
    exact ⟨by rw [retainedFrames, if_neg h1], by rw [newSampsPerFrame, if_neg h1]⟩

set_option maxRecDepth 100000 in
/-- C2 witness: the thinning contract instantiated at `T = 3000`, `fps = 30`,
`rough_length = 10`, where the thinning factor evaluates to `10` and exactly
`300` frames are retained. -/
theorem corner_thinning_witness :
    ((0 : ℚ) < 10 ∧ 0 < 30) ∧
    (thin_factor 3000 30 10 = ⌊((⌊(3000 : ℚ) / 10⌋ : ℤ) : ℚ) / ((30 : ℕ) : ℚ)⌋ ∧
     (1 < thin_factor 3000 30 10 →
       (∀ i, i ∈ retainedFrames 3000 30 10 ↔
         i < 3000 ∧ i % (thin_factor 3000 30 10).toNat = 0) ∧
       List.Pairwise (fun p q => p < q) (retainedFrames 3000 30 10) ∧
       (1 ≤ 3000 → (retainedFrames 3000 30 10).head? = some 0) ∧
       newSampsPerFrame 10 3000 30 10 = 10 * ((thin_factor 3000 30 10 : ℤ) : ℚ)) ∧
     (¬ 1 < thin_factor 3000 30 10 →
       retainedFrames 3000 30 10 = List.range 3000 ∧
       newSampsPerFrame 10 3000 30 10 = 10)) ∧
    thin_factor 3000 30 10 = 10 ∧
    (retainedFrames 3000 30 10).length = 300 := by
  have htf : thin_factor 3000 30 10 = 10 := by
    have h1 : (3000 : ℚ) / 10 = ((300 : ℤ) : ℚ) := by norm_num
    have h2 : ((300 : ℤ) : ℚ) / ((30 : ℕ) : ℚ) = ((10 : ℤ) : ℚ) := by norm_num
    rw [thin_factor]
    rw [show ((3000 : ℕ) : ℚ) = (3000 : ℚ) by norm_num, h1, Int.floor_intCast, h2,
      Int.floor_intCast]
  have hlen : (retainedFrames 3000 30 10).length = 300 := by
    rw [retainedFrames, htf, if_pos (by norm_num : (1 : ℤ) < 10)]
    decide
  exact ⟨⟨by norm_num, by norm_num⟩,
    corner_thinning 3000 30 10 10 (by norm_num) (by norm_num), htf, hlen⟩

/-- C8: when the labels list or the truths list is supplied with a length
different from the cube's parameter count, the figure-build step fails with
a dimension-mismatch error.  (Spec-modelled: the check itself lives in the
external `triangle.corner` collaborator, which is not part of this
repository.) -/
theorem corner_dim_mismatch (c : Cube) (labels : Option (List String))
    (truths : Option (List ℚ))
    (h : (∃ ls, labels = some ls ∧ ls.length ≠ c.D) ∨
         (∃ ts, truths = some ts ∧ ts.length ≠ c.D)) :
    buildFigureCheck c labels truths = Except.error PyErr.dimensionMismatch := by
  have hmm : dimsMismatch c.D labels truths = true := by
    rcases h with ⟨ls, rfl, hlen⟩ | ⟨ts, rfl, hlen⟩
    · simp [dimsMismatch, hlen]
    · simp [dimsMismatch, hlen]
  rw [buildFigureCheck, if_pos hmm]

/-- C8 witness: an empty labels list against the 2-parameter cube `wCube` is
rejected with the dimension-mismatch error. -/
theorem corner_dim_mismatch_witness :
    ((∃ ls, (some ([] : List String)) = some ls ∧ ls.length ≠ wCube.D) ∨
     (∃ ts, (none : Option (List ℚ)) = some ts ∧ ts.length ≠ wCube.D)) ∧
    buildFigureCheck wCube (some ([] : List String)) none =
      Except.error PyErr.dimensionMismatch :=
  ⟨Or.inl ⟨[], rfl, by decide⟩,
   corner_dim_mismatch wCube (some []) none (Or.inl ⟨[], rfl, by decide⟩)⟩

/-- C5: for every frame index and every lower-triangle pair `(x, y)` with
`y < x`, a successful per-frame update leaves the existing scatter artist of
axis `(x, y)` holding exactly the data `(cube[i, :, y], cube[i, :, x])`,
with no transformation applied. -/
theorem update_scatter_data (c : Cube) (i : ℕ) (fig : Figure)
    (bins : List (List ℚ)) (truths ymaxs : Option (List ℚ)) (x y : ℕ)
    (hN : 1 ≤ c.N) (hyx : y < x) (hx : x < c.D)
    (hpre1 : ∀ z ∈ List.range c.D, diagPre bins truths ymaxs z = true)
    (hpre2 : ∀ p ∈ pairList c.D, (fig.lower p.1 p.2).lines ≠ []) :
    ∃ fig', iterate_corner c i fig bins truths ymaxs = Except.ok fig' ∧
      (fig'.lower x y).lines.head? =
        some ((List.range c.N).map (fun n => c.val i n y),
              (List.range c.N).map (fun n => c.val i n x)) := by
  have hfd : frameDim (cubeFrame c i) = c.D := frameDim_cubeFrame i hN
  obtain ⟨dg, hdg⟩ := foldE_diag_ok (cubeFrame c i)
    (List.range (frameDim (cubeFrame c i))) (by rw [hfd]; exact hpre1) fig.diag
  obtain ⟨lw, hlw⟩ := foldE_scatter_ok (cubeFrame c i)
    (pairList (frameDim (cubeFrame c i))) fig.lower (by rw [hfd]; exact hpre2)
  refine ⟨Figure.mk fig.D dg lw, ?_, ?_⟩
  · rw [iterate_corner]
    exact updateCorner_eq hdg hlw
  · have hmem : ((x, y) : ℕ × ℕ) ∈ pairList (frameDim (cubeFrame c i)) := by
      rw [hfd]
      exact mem_pairList.mpr ⟨hyx, hx⟩
    have hv := foldE_scatter_val (pairList (frameDim (cubeFrame c i)))
      (pairList_nodup _) fig.lower lw hlw (x, y) hmem
    show (lw x y).lines.head? = _
    rw [hv.2]
    show (((col (cubeFrame c i) y, col (cubeFrame c i) x)) :: _).head? = _
    rw [List.head?_cons, col_cubeFrame (lt_trans hyx hx), col_cubeFrame hx]

/-- C5 witness: for the concrete cube `wCube`, frame 0 and the pair
`(x, y) = (1, 0)` of the concrete figure `wFig`, the update succeeds and the
scatter artist holds exactly `(cube[0, :, 0], cube[0, :, 1])`. -/
theorem update_scatter_data_witness :
    (1 ≤ wCube.N ∧ 0 < 1 ∧ 1 < wCube.D ∧
     (∀ z ∈ List.range wCube.D, diagPre wBins none none z = true) ∧
     (∀ p ∈ pairList wCube.D, (wFig.lower p.1 p.2).lines ≠ [])) ∧
    (∃ fig', iterate_corner wCube 0 wFig wBins none none = Except.ok fig' ∧
      (fig'.lower 1 0).lines.head? =
        some ((List.range wCube.N).map (fun n => wCube.val 0 n 0),
              (List.range wCube.N).map (fun n => wCube.val 0 n 1))) :=
  ⟨⟨by decide, by decide, by decide, by decide, by decide⟩,
   update_scatter_data wCube 0 wFig wBins none none 1 0
     (by decide) (by decide) (by decide) (by decide) (by decide)⟩

/-- C7: the per-frame update is idempotent on the rendered state it claims
to produce: if the preconditions of the update hold, then updating with
frame `i` succeeds, immediately updating the result with the same frame `i`
succeeds again, and the second update changes nothing that the first drew —
every diagonal axis holds the same (single, freshly redrawn) histogram
patches, the same x-limits and the same y-cap, and every scatter axis holds
exactly the same lines.  Histogram bars never accumulate because every
previously drawn patch is removed before the redraw. -/
theorem update_idempotent (c : Cube) (i : ℕ) (fig : Figure)
    (bins : List (List ℚ)) (truths ymaxs : Option (List ℚ))
    (hpre1 : ∀ z ∈ List.range (frameDim (cubeFrame c i)),
      diagPre bins truths ymaxs z = true)
    (hpre2 : ∀ p ∈ pairList (frameDim (cubeFrame c i)),
      (fig.lower p.1 p.2).lines ≠ []) :
    ∃ fig1 fig2,
      iterate_corner c i fig bins truths ymaxs = Except.ok fig1 ∧
      iterate_corner c i fig1 bins truths ymaxs = Except.ok fig2 ∧
      (∀ x, (fig2.diag x).patches = (fig1.diag x).patches ∧
            (fig2.diag x).xlim = (fig1.diag x).xlim ∧
            (fig2.diag x).ylimTop = (fig1.diag x).ylimTop) ∧
      (∀ x y, fig2.lower x y = fig1.lower x y) := by
  obtain ⟨dg1, hdg1⟩ := foldE_diag_ok (cubeFrame c i)
    (List.range (frameDim (cubeFrame c i))) hpre1 fig.diag
  obtain ⟨lw1, hlw1⟩ := foldE_scatter_ok (cubeFrame c i)
    (pairList (frameDim (cubeFrame c i))) fig.lower hpre2
  have hpre2' : ∀ p ∈ pairList (frameDim (cubeFrame c i)),
      (lw1 p.1 p.2).lines ≠ [] := by
    intro p hp
    have hv := foldE_scatter_val (pairList (frameDim (cubeFrame c i)))
      (pairList_nodup _) fig.lower lw1 hlw1 p hp
    rw [hv.2]
    exact List.cons_ne_nil _ _
  obtain ⟨dg2, hdg2⟩ := foldE_diag_ok (cubeFrame c i)
    (List.range (frameDim (cubeFrame c i))) hpre1 dg1
  obtain ⟨lw2, hlw2⟩ := foldE_scatter_ok (cubeFrame c i)
    (pairList (frameDim (cubeFrame c i))) lw1 hpre2'
  refine ⟨Figure.mk fig.D dg1 lw1, Figure.mk fig.D dg2 lw2, ?_, ?_, ?_, ?_⟩
  · rw [iterate_corner]
    exact updateCorner_eq hdg1 hlw1
  · rw [iterate_corner]
    exact updateCorner_eq hdg2 hlw2
  · intro x
    by_cases hx : x ∈ List.range (frameDim (cubeFrame c i))
    · have a1 := foldE_diag_val (List.range (frameDim (cubeFrame c i)))
        (List.nodup_range _) fig.diag dg1 hdg1 x hx
      have a2 := foldE_diag_val (List.range (frameDim (cubeFrame c i)))
        (List.nodup_range _) dg1 dg2 hdg2 x hx
      exact ⟨a2.1.trans a1.1.symm, a2.2.1, a2.2.2.trans a1.2.2.symm⟩
    · have b2 := foldE_diag_pres (List.range (frameDim (cubeFrame c i)))
        dg1 dg2 hdg2 x (fun z hz => by rintro rfl; exact hx hz)
      exact ⟨congrArg DiagAxis.patches b2, congrArg DiagAxis.xlim b2,
        congrArg DiagAxis.ylimTop b2⟩
  · intro x y
    by_cases hp : ((x, y) : ℕ × ℕ) ∈ pairList (frameDim (cubeFrame c i))
    · have s1 := foldE_scatter_val (pairList (frameDim (cubeFrame c i)))
        (pairList_nodup _) fig.lower lw1 hlw1 (x, y) hp
      have s2 := foldE_scatter_val (pairList (frameDim (cubeFrame c i)))
        (pairList_nodup _) lw1 lw2 hlw2 (x, y) hp
      show lw2 x y = lw1 x y
      rw [s2.2, s1.2]
      rfl
    · have p2 := foldE_scatter_pres (pairList (frameDim (cubeFrame c i)))
        lw1 lw2 hlw2 x y (fun q hq hc => hp (by
          have hpq : ((x, y) : ℕ × ℕ) = q := Prod.ext hc.1 hc.2
          rw [hpq]
          exact hq))
      exact p2

/-- C7 witness: the idempotence contract instantiated at frame 0 of the
concrete cube `wCube` and the concrete figure `wFig`. -/
theorem update_idempotent_witness :
    ((∀ z ∈ List.range (frameDim (cubeFrame wCube 0)), diagPre wBins none none z = true) ∧
     (∀ p ∈ pairList (frameDim (cubeFrame wCube 0)), (wFig.lower p.1 p.2).lines ≠ [])) ∧
    (∃ fig1 fig2,
      iterate_corner wCube 0 wFig wBins none none = Except.ok fig1 ∧
      iterate_corner wCube 0 fig1 wBins none none = Except.ok fig2 ∧
      (∀ x, (fig2.diag x).patches = (fig1.diag x).patches ∧
            (fig2.diag x).xlim = (fig1.diag x).xlim ∧
            (fig2.diag x).ylimTop = (fig1.diag x).ylimTop) ∧
      (∀ x y, fig2.lower x y = fig1.lower x y)) :=
  ⟨⟨by decide, by decide⟩,
   update_idempotent wCube 0 wFig wBins none none (by decide) (by decide)⟩

/-- C9: when some lower-triangle axis of the figure holds no scatter line,
the per-frame update for a pair on that axis fails (with Python's
`IndexError` from `ax.get_lines()[0]`) rather than silently skipping the
pair: the update can never return successfully. -/
theorem update_missing_scatter (frame : List (List ℚ)) (fig : Figure)
    (bins : List (List ℚ)) (truths ymaxs : Option (List ℚ)) (x y : ℕ)
    (hyx : y < x) (hx : x < frameDim frame)
    (hempty : (fig.lower x y).lines = []) :
    ∀ fig', updateCorner frame fig bins truths ymaxs ≠ Except.ok fig' := by
  intro fig' h
  obtain ⟨dg, lw, hdg, hlw, rfl⟩ := updateCorner_shape h
  exact foldE_scatter_err (pairList (frameDim frame)) fig.lower (x, y)
    (mem_pairList.mpr ⟨hyx, hx⟩) hempty lw hlw

/-- C9 witness: updating the concrete figure `wFigNoLines`, whose scatter
axes hold no lines, with the concrete frame `wFrame` can never succeed. -/
theorem update_missing_scatter_witness :
    (0 < 1 ∧ 1 < frameDim wFrame ∧ (wFigNoLines.lower 1 0).lines = []) ∧
    (∀ fig', updateCorner wFrame wFigNoLines wBins none none ≠ Except.ok fig') :=
  ⟨⟨by decide, by decide, by decide⟩,
   update_missing_scatter wFrame wFigNoLines wBins none none 1 0
     (by decide) (by decide) (by decide)⟩

end Prism
